import Mathlib

/-!
Verification of the DJ-mix segmenter (`segmenter.py`): a shallow embedding of
the peak picker, the cue-sheet generator, the track-match scoring, the
tracklist-timestamp bypass, the interactive verification/retry loop and the
chunked novelty recombination, together with proofs of the spec's testable
properties.  Python floats are modelled as rationals, machine integers as
`Nat`/`Int`; Python's stable `list.sort`/`sorted` is modelled by the stable
`List.insertionSort`.
-/

namespace Segmenter

/-- `int(60 * sr / self.hop_length)` from `DJMixSegmenter._find_peaks`:
the minimum number of frames between accepted boundaries. -/
def min_distance_frames (sr hop : ℕ) : ℕ := 60 * sr / hop

/-- The strict-local-maximum test `novelty[i] > novelty[i-1] and
novelty[i] > novelty[i+1]` used by both peak-picking modes.  Call sites only
scan `range(1, len(novelty)-1)`, so the neighbour reads are in range. -/
def isLocalMax (novelty : List ℚ) (i : ℕ) : Bool :=
  decide (novelty.getD (i-1) 0 < novelty.getD i 0) &&
    decide (novelty.getD (i+1) 0 < novelty.getD i 0)

/-- Threshold-mode scan of `_find_peaks`: walk candidate frame indices left to
right; accept a frame iff it passes `cand` and lies more than `d` frames after
the previously accepted peak (`not peaks or (i - peaks[-1]) > min_distance_frames`). -/
def greedyScan (cand : ℕ → Bool) (d : ℕ) : List ℕ → Option ℕ → List ℕ
  | [], _ => []
  | i :: rest, last =>
    if cand i then
      match last with
      | none => i :: greedyScan cand d rest (some i)
      | some p =>
        if d < i - p then i :: greedyScan cand d rest (some i)
        else greedyScan cand d rest (some p)
    else greedyScan cand d rest last

/-- Count-mode candidate collection of `_find_peaks`: every interior strict
local maximum paired with its novelty value, in index order. -/
def potential_peaks (novelty : List ℚ) : List (ℕ × ℚ) :=
  ((List.range' 1 (novelty.length - 2)).filter (fun i => isLocalMax novelty i)).map
    (fun i => (i, novelty.getD i 0))

/-- `potential_peaks.sort(key=lambda x: x[1], reverse=True)`: stable sort,
descending by novelty value, ties keeping index order. -/
def sort_by_value_desc (l : List (ℕ × ℚ)) : List (ℕ × ℚ) :=
  l.insertionSort (fun a b => b.2 ≤ a.2)

/-- Count-mode greedy selection of `_find_peaks`: walk the candidates in
descending novelty order; a candidate closer than `d` frames (`abs` distance)
to any already selected peak is skipped, otherwise it is appended; after each
candidate the loop stops once `len(peaks) >= target_boundaries`. -/
def select_peaks (d target : ℕ) : List (ℕ × ℚ) → List ℕ → List ℕ
  | [], acc => acc
  | (i, _) :: rest, acc =>
    let tooClose := acc.any (fun s => Nat.dist i s < d)
    let acc2 := if tooClose then acc else acc ++ [i]
    if target ≤ acc2.length then acc2
    else select_peaks d target rest acc2

/-- `librosa.frames_to_time(peaks, sr=sr, hop_length=hop)`:
seconds = frame·hop/sr. -/
def frames_to_time (sr hop : ℕ) (frames : List ℕ) : List ℚ :=
  frames.map (fun i => ((i * hop : ℕ) : ℚ) / (sr : ℚ))

/-- `DJMixSegmenter._find_peaks`.  `expected_count` of `none` or `some 0` is
falsy in Python (`if expected_count:`) and selects threshold mode; a positive
`expected_count` selects count-constrained mode, which finally sorts the
selected peaks by time (`peaks.sort()`). -/
def find_peaks (novelty : List ℚ) (sr hop : ℕ) (sensitivity : ℚ)
    (expected_count : Option ℕ) : List ℚ :=
  let threshold : ℚ := 9/10 - sensitivity * (6/10)
  let d := min_distance_frames sr hop
  let peaks : List ℕ :=
    if 0 < expected_count.getD 0 then
      let target := expected_count.getD 0 - 1
      (select_peaks d target (sort_by_value_desc (potential_peaks novelty)) []).insertionSort
        (· ≤ ·)
    else
      greedyScan (fun i => decide (threshold < novelty.getD i 0) && isLocalMax novelty i) d
        (List.range' 1 (novelty.length - 2)) none
  frames_to_time sr hop peaks

/-! ### Helper lemmas: count-constrained selection -/

/-- The selection loop of count mode stops once the target is reached: starting
strictly below the target, it never returns more than `target` peaks. -/
theorem select_peaks_length_le (d target : ℕ) :
    ∀ (l : List (ℕ × ℚ)) (acc : List ℕ), acc.length < target →
      (select_peaks d target l acc).length ≤ target := by
  intro l
  induction l with
  | nil => intro acc h; simpa [select_peaks] using Nat.le_of_lt h
  | cons hd rest ih =>
    intro acc h
    obtain ⟨i, v⟩ := hd
    simp only [select_peaks]
    set acc2 := if acc.any (fun s => Nat.dist i s < d) then acc else acc ++ [i] with hacc2
    have h2 : acc2.length ≤ acc.length + 1 := by
      by_cases hc : acc.any (fun s => Nat.dist i s < d)
      · simp [hacc2, hc]
      · simp [hacc2, hc]
    by_cases hstop : target ≤ acc2.length
    · simp only [if_pos hstop]
      exact le_trans h2 (Nat.succ_le_of_lt h)
    · simp only [if_neg hstop]
      exact ih acc2 (Nat.lt_of_not_le hstop)

/-- With a target of `0` (an expected count of one track), the selection loop
still appends the first candidate before checking the stop condition, so it can
return one more peak than the accumulator held. -/
theorem select_peaks_zero_length_le (d : ℕ) :
    ∀ (l : List (ℕ × ℚ)) (acc : List ℕ),
      (select_peaks d 0 l acc).length ≤ acc.length + 1 := by
  intro l
  induction l with
  | nil => intro acc; simp [select_peaks]
  | cons hd rest _ =>
    intro acc
    obtain ⟨i, v⟩ := hd
    simp only [select_peaks, Nat.zero_le, if_pos]
    by_cases hc : acc.any (fun s => Nat.dist i s < d)
    · simp [hc]
    · simp [hc]

/-! ### Claim C1 -/

/-- C1 counterexample: with `expected_count = 1` the count-constrained picker
does *not* return at most `expected_count - 1 = 0` boundaries; on the novelty
curve `[0, 1, 0]` it returns one boundary, because the selection loop appends
the first candidate before checking `len(peaks) >= target_boundaries`. -/
theorem find_peaks_expected_one_counterexample :
    ¬ ((find_peaks [0, 1, 0] 22050 512 (1/2) (some 1)).length ≤ 1 - 1) := by decide

/-- C1 (amended): for every novelty curve, sample rate, hop length and supplied
`expected_count ≥ 1`, count-constrained mode returns at most
`max (expected_count - 1) 1` boundaries: at most `expected_count - 1` whenever
`expected_count ≥ 2`, while `expected_count = 1` may yield one boundary. -/
theorem find_peaks_count_bound (novelty : List ℚ) (sr hop : ℕ) (sensitivity : ℚ)
    (n : ℕ) (hn : 1 ≤ n) :
    (find_peaks novelty sr hop sensitivity (some n)).length ≤ max (n - 1) 1 := by
  have hpos : 0 < n := hn
  simp only [find_peaks, Option.getD_some]
  rw [if_pos hpos]
  simp only [frames_to_time, List.length_map, List.length_insertionSort]
  rcases Nat.lt_or_ge 1 n with h2 | h1
  · refine le_trans (select_peaks_length_le _ _ _ [] ?_) (le_max_left _ _)
    simpa using (by omega : 0 < n - 1)
  · have hn1 : n = 1 := le_antisymm h1 hn
    subst hn1
    have hb := select_peaks_zero_length_le (min_distance_frames sr hop)
      (sort_by_value_desc (potential_peaks novelty)) []
    simpa using hb

/-- Witness for C1's amended bound at a concrete input. -/
theorem find_peaks_count_bound_witness :
    1 ≤ 2 ∧ (find_peaks [0, 1, 0] 22050 512 (1/2) (some 2)).length ≤ max (2 - 1) 1 :=
  ⟨by decide, find_peaks_count_bound [0, 1, 0] 22050 512 (1/2) 2 (by decide)⟩

/-! ### Helper lemmas: threshold-mode scan invariant -/

/-- Every peak emitted by the threshold-mode scan lies more than `d` frames
after the `last` accepted peak, and consecutive emitted peaks are more than
`d` frames apart. -/
theorem greedyScan_gap (cand : ℕ → Bool) (d : ℕ) :
    ∀ (idxs : List ℕ) (last : Option ℕ),
      (∀ p, last = some p → ∀ x ∈ greedyScan cand d idxs last, d < x - p) ∧
      List.Chain' (fun a b => d < b - a) (greedyScan cand d idxs last) := by
  intro idxs
  induction idxs with
  | nil => intro last; simp [greedyScan]
  | cons i rest ih =>
    intro last
    by_cases hc : cand i
    · cases last with
      | none =>
        simp only [greedyScan, hc, if_true]
        obtain ⟨hmem, hchain⟩ := ih (some i)
        refine ⟨by simp, List.chain'_cons'.mpr ⟨?_, hchain⟩⟩
        intro y hy
        exact hmem i rfl y (List.mem_of_mem_head? hy)
      | some p =>
        by_cases hdist : d < i - p
        · simp only [greedyScan, hc, if_true, if_pos hdist]
          obtain ⟨hmem, hchain⟩ := ih (some i)
          constructor
          · intro q hq x hx
            injection hq with hq; subst hq
            rcases List.mem_cons.mp hx with rfl | hx'
            · exact hdist
            · have h1 := hmem i rfl x hx'
              omega
          · refine List.chain'_cons'.mpr ⟨?_, hchain⟩
            intro y hy
            exact hmem i rfl y (List.mem_of_mem_head? hy)
        · simp only [greedyScan, hc, if_true, if_neg hdist]
          obtain ⟨hmem, hchain⟩ := ih (some p)
          refine ⟨?_, hchain⟩
          intro q hq x hx
          injection hq with hq; subst hq
          exact hmem p rfl x hx
    · simp only [greedyScan, hc, if_false]
      exact ih last

/-! ### Helper lemmas: count-mode selection invariants -/

/-- Any two distinct peaks selected in count mode are at least `d` frames
apart (the `abs(peak_idx - selected_peak) < min_distance_frames` skip). -/
theorem select_peaks_sep (d target : ℕ) :
    ∀ (l : List (ℕ × ℚ)) (acc : List ℕ),
      (∀ a ∈ acc, ∀ b ∈ acc, a ≠ b → d ≤ Nat.dist a b) →
      ∀ a ∈ select_peaks d target l acc, ∀ b ∈ select_peaks d target l acc,
        a ≠ b → d ≤ Nat.dist a b := by
  intro l
  induction l with
  | nil => intro acc hacc; simpa [select_peaks] using hacc
  | cons hd rest ih =>
    intro acc hacc
    obtain ⟨i, v⟩ := hd
    simp only [select_peaks]
    by_cases hclose : acc.any (fun s => Nat.dist i s < d)
    · simp only [if_pos hclose]
      by_cases hstop : target ≤ acc.length
      · simpa [hstop] using hacc
      · simpa [hstop] using ih acc hacc
    · simp only [if_neg hclose]
      have hfar : ∀ s ∈ acc, d ≤ Nat.dist i s := by
        intro s hs
        have := (List.any_eq_false.mp (Bool.of_not_eq_true hclose)) s hs
        simpa using this
      have hacc2 : ∀ a ∈ acc ++ [i], ∀ b ∈ acc ++ [i], a ≠ b → d ≤ Nat.dist a b := by
        intro a ha b hb hne
        rcases List.mem_append.mp ha with ha' | ha' <;>
          rcases List.mem_append.mp hb with hb' | hb'
        · exact hacc a ha' b hb' hne
        · have hb'' : b = i := List.mem_singleton.mp hb'
          subst hb''
          rw [Nat.dist_comm]
          exact hfar a ha'
        · have ha'' : a = i := List.mem_singleton.mp ha'
          subst ha''
          exact hfar b hb'
        · exact absurd (List.mem_singleton.mp ha' ▸ (List.mem_singleton.mp hb').symm) hne
      simp only [List.length_append, List.length_singleton]
      by_cases hstop : target ≤ acc.length + 1
      · simpa [hstop] using hacc2
      · simpa [hstop] using ih (acc ++ [i]) hacc2

/-- Selected peaks are distinct: the accumulator stays duplicate-free while
consuming a duplicate-free candidate list disjoint from it. -/
theorem select_peaks_nodup (d target : ℕ) :
    ∀ (l : List (ℕ × ℚ)) (acc : List ℕ), acc.Nodup → (l.map Prod.fst).Nodup →
      (∀ a ∈ acc, a ∉ l.map Prod.fst) → (select_peaks d target l acc).Nodup := by
  intro l
  induction l with
  | nil => intro acc h _ _; simpa [select_peaks] using h
  | cons hd rest ih =>
    intro acc hacc hl hdisj
    obtain ⟨i, v⟩ := hd
    simp only [List.map_cons, List.nodup_cons] at hl
    obtain ⟨hi, hrest⟩ := hl
    have hine : i ∉ acc := by
      intro hmem
      exact hdisj i hmem (by simp)
    have hacc2 : (acc ++ [i]).Nodup := by
      refine List.nodup_append.mpr ⟨hacc, List.nodup_singleton i, ?_⟩
      intro a ha hai
      exact hine (List.mem_singleton.mp hai ▸ ha)
    have hdisj2 : ∀ a ∈ acc ++ [i], a ∉ List.map Prod.fst rest := by
      intro a ha
      rcases List.mem_append.mp ha with ha' | ha'
      · intro hmem
        exact hdisj a ha' (by simp [hmem])
      · intro hmem
        exact hi (List.mem_singleton.mp ha' ▸ hmem)
    have hdisj1 : ∀ a ∈ acc, a ∉ List.map Prod.fst rest := by
      intro a ha hmem
      exact hdisj a ha (by simp [hmem])
    simp only [select_peaks]
    by_cases hclose : acc.any (fun s => Nat.dist i s < d)
    · simp only [if_pos hclose]
      by_cases hstop : target ≤ acc.length
      · simpa [hstop] using hacc
      · simpa [hstop] using ih acc hacc hrest hdisj1
    · simp only [if_neg hclose]
      simp only [List.length_append, List.length_singleton]
      by_cases hstop : target ≤ acc.length + 1
      · simpa [hstop] using hacc2
      · simpa [hstop] using ih (acc ++ [i]) hacc2 hrest hdisj2

/-- The first components of the count-mode candidates are exactly the local
maximum indices, hence duplicate-free. -/
theorem potential_peaks_fst (novelty : List ℚ) :
    (potential_peaks novelty).map Prod.fst
      = (List.range' 1 (novelty.length - 2)).filter (fun i => isLocalMax novelty i) := by
  simp [potential_peaks, List.map_map, Function.comp_def]

/-- Count mode, after its final ascending `peaks.sort()`, yields strictly
increasing peaks any two of which are at least `d` frames apart. -/
theorem count_peaks_chain (novelty : List ℚ) (d target : ℕ) :
    List.Chain' (fun a b => a < b ∧ d ≤ b - a)
      ((select_peaks d target (sort_by_value_desc (potential_peaks novelty))
          []).insertionSort (· ≤ ·)) := by
  set sel := select_peaks d target (sort_by_value_desc (potential_peaks novelty)) [] with hsel
  have hfstnd : ((sort_by_value_desc (potential_peaks novelty)).map Prod.fst).Nodup := by
    have hperm := (List.perm_insertionSort (fun a b : ℕ × ℚ => b.2 ≤ a.2)
      (potential_peaks novelty)).map Prod.fst
    refine hperm.nodup_iff.mpr ?_
    rw [potential_peaks_fst]
    exact (List.nodup_range' 1 (novelty.length - 2)).filter _
  have hnd : sel.Nodup :=
    select_peaks_nodup d target _ [] List.nodup_nil hfstnd (by simp)
  have hsep := select_peaks_sep d target (sort_by_value_desc (potential_peaks novelty))
    [] (by simp)
  have hperm := List.perm_insertionSort (· ≤ · : ℕ → ℕ → Prop) sel
  have hsorted : (sel.insertionSort (· ≤ ·)).Sorted (· ≤ ·) :=
    List.sorted_insertionSort _ _
  have hndS : (sel.insertionSort (· ≤ ·)).Nodup := hperm.nodup_iff.mpr hnd
  refine List.Pairwise.chain' (List.Pairwise.imp_of_mem ?_ (hsorted.and hndS))
  intro a b ha hb hab
  obtain ⟨hle, hne⟩ := hab
  have hdist := hsep a (hperm.mem_iff.mp ha) b (hperm.mem_iff.mp hb) hne
  exact ⟨lt_of_le_of_ne hle hne, by rwa [Nat.dist_eq_sub_of_le hle] at hdist⟩

/-- Converting a strictly increasing, `d`-separated frame list to timestamps
yields non-negative, strictly increasing times at least `d·hop/sr` apart. -/
theorem frames_to_time_chain (sr hop : ℕ) (hsr : 0 < sr) (hhop : 0 < hop)
    (d : ℕ) (peaks : List ℕ)
    (h : List.Chain' (fun a b => a < b ∧ d ≤ b - a) peaks) :
    (∀ t ∈ frames_to_time sr hop peaks, 0 ≤ t) ∧
      List.Chain' (fun x y => x < y ∧ ((d * hop : ℕ) : ℚ) / (sr : ℚ) ≤ y - x)
        (frames_to_time sr hop peaks) := by
  have hsrq : (0 : ℚ) < (sr : ℚ) := by exact_mod_cast hsr
  constructor
  · intro t ht
    simp only [frames_to_time, List.mem_map] at ht
    obtain ⟨i, _, rfl⟩ := ht
    positivity
  · rw [frames_to_time, List.chain'_map]
    refine h.imp ?_
    rintro a b ⟨hab, hd⟩
    have hmul : a * hop < b * hop := by
      exact Nat.mul_lt_mul_of_lt_of_le hab (le_refl hop) hhop
    have hmul' : a * hop ≤ b * hop := le_of_lt hmul
    constructor
    · rw [div_lt_div_iff_of_pos_right hsrq]
      exact_mod_cast hmul
    · rw [div_sub_div_same, div_le_div_iff_of_pos_right hsrq]
      have hnat : d * hop ≤ b * hop - a * hop := by
        rw [← Nat.sub_mul]
        exact Nat.mul_le_mul_right hop hd
      calc ((d * hop : ℕ) : ℚ) ≤ ((b * hop - a * hop : ℕ) : ℚ) := by exact_mod_cast hnat
        _ = ((b * hop : ℕ) : ℚ) - ((a * hop : ℕ) : ℚ) := Nat.cast_sub hmul'

/-! ### Claim C2 -/

/-- C2: for every novelty curve and both peak-picker modes, the returned
boundary list is non-negative, strictly increasing, and consecutive boundaries
are at least `min_distance_frames` frames — that is,
`min_distance_frames·hop/sr` seconds — apart. -/
theorem find_peaks_boundary_invariants (novelty : List ℚ) (sr hop : ℕ)
    (sensitivity : ℚ) (expected_count : Option ℕ) (hsr : 0 < sr) (hhop : 0 < hop) :
    (∀ t ∈ find_peaks novelty sr hop sensitivity expected_count, 0 ≤ t) ∧
      List.Chain' (fun x y => x < y ∧
          ((min_distance_frames sr hop * hop : ℕ) : ℚ) / (sr : ℚ) ≤ y - x)
        (find_peaks novelty sr hop sensitivity expected_count) := by
  simp only [find_peaks]
  by_cases hec : 0 < expected_count.getD 0
  · rw [if_pos hec]
    exact frames_to_time_chain sr hop hsr hhop _ _ (count_peaks_chain novelty _ _)
  · rw [if_neg hec]
    refine frames_to_time_chain sr hop hsr hhop _ _ ?_
    refine ((greedyScan_gap _ _ _ none).2).imp ?_
    intro a b hgap
    omega

/-- Witness for C2 at a concrete input (threshold mode, one detected peak). -/
theorem find_peaks_boundary_invariants_witness :
    (∀ t ∈ find_peaks [0, 1, 0] 22050 512 1 none, 0 ≤ t) ∧
      List.Chain' (fun x y => x < y ∧
          ((min_distance_frames 22050 512 * 512 : ℕ) : ℚ) / (22050 : ℚ) ≤ y - x)
        (find_peaks [0, 1, 0] 22050 512 1 none) :=
  find_peaks_boundary_invariants [0, 1, 0] 22050 512 1 none (by decide) (by decide)

/-! ### Helper lemmas: threshold-mode monotonicity -/

/-- Whether the scan at index `i` with memory `last` accepts `i`. -/
def takeStep (cand : ℕ → Bool) (d i : ℕ) : Option ℕ → Bool
  | none => cand i
  | some p => cand i && decide (d < i - p)

/-- One unfolding step of the scan, phrased through `takeStep`. -/
theorem greedyScan_cons (cand : ℕ → Bool) (d i : ℕ) (rest : List ℕ) (last : Option ℕ) :
    greedyScan cand d (i :: rest) last =
      if takeStep cand d i last then i :: greedyScan cand d rest (some i)
      else greedyScan cand d rest last := by
  cases last with
  | none => by_cases hc : cand i <;> simp [greedyScan, takeStep, hc]
  | some p =>
    by_cases hc : cand i
    · by_cases hd : d < i - p <;> simp [greedyScan, takeStep, hc, hd]
    · simp [greedyScan, takeStep, hc]

/-- `last` precedes every index still to be scanned. -/
def optBefore (last : Option ℕ) (idxs : List ℕ) : Prop :=
  ∀ p, last = some p → ∀ i ∈ idxs, p < i

theorem optBefore_tail {last : Option ℕ} {i : ℕ} {rest : List ℕ}
    (h : optBefore last (i :: rest)) : optBefore last rest :=
  fun p hp j hj => h p hp j (List.mem_cons_of_mem i hj)

/-- Greedy dominance: scanning the same ascending index list with a weaker
candidate predicate never yields fewer peaks.  The first conjunct compares
runs whose memories satisfy `last2 ≤ last1`; the second allows arbitrary
memories at the cost of one peak of slack. -/
theorem greedyScan_mono (d : ℕ) (cand1 cand2 : ℕ → Bool)
    (hc : ∀ i, cand1 i = true → cand2 i = true) :
    ∀ idxs : List ℕ, List.Pairwise (· < ·) idxs →
      (∀ last1 last2, optBefore last1 idxs → optBefore last2 idxs →
          (∀ b, last2 = some b → ∃ a, last1 = some a ∧ b ≤ a) →
          (greedyScan cand1 d idxs last1).length
            ≤ (greedyScan cand2 d idxs last2).length)
        ∧ (∀ last1 last2, optBefore last1 idxs → optBefore last2 idxs →
          (greedyScan cand1 d idxs last1).length
            ≤ (greedyScan cand2 d idxs last2).length + 1) := by
  intro idxs
  induction idxs with
  | nil => intro _; simp [greedyScan]
  | cons i rest ih =>
    intro hp
    obtain ⟨hlt, hprest⟩ := List.pairwise_cons.mp hp
    obtain ⟨ihA, ihB⟩ := ih hprest
    have hselfBefore : optBefore (some i) rest := by
      intro p hp' j hj
      injection hp' with hp'; subst hp'
      exact hlt j hj
    constructor
    · intro last1 last2 hb1 hb2 hrel
      by_cases h1 : takeStep cand1 d i last1
      · have h2 : takeStep cand2 d i last2 = true := by
          have hc1 : cand1 i = true := by
            cases last1 with
            | none => exact h1
            | some p => simp only [takeStep, Bool.and_eq_true] at h1; exact h1.1
          have hc2 := hc i hc1
          cases last2 with
          | none => exact hc2
          | some b =>
            obtain ⟨a, ha, hba⟩ := hrel b rfl
            subst ha
            have hda : d < i - a := by
              simp only [takeStep, Bool.and_eq_true, decide_eq_true_eq] at h1
              exact h1.2
            simp only [takeStep, hc2, Bool.true_and, decide_eq_true_eq]
            omega
        rw [greedyScan_cons, greedyScan_cons, if_pos h1, if_pos h2]
        simp only [List.length_cons, Nat.add_le_add_iff_right]
        exact ihA (some i) (some i) hselfBefore hselfBefore
          (fun b hb => ⟨i, rfl, by injection hb with hb; omega⟩)
      · rw [greedyScan_cons, if_neg h1]
        by_cases h2 : takeStep cand2 d i last2
        · rw [greedyScan_cons, if_pos h2]
          have := ihB last1 (some i) (optBefore_tail hb1) hselfBefore
          simpa [List.length_cons] using this
        · rw [greedyScan_cons, if_neg h2]
          exact ihA last1 last2 (optBefore_tail hb1) (optBefore_tail hb2) hrel
    · intro last1 last2 hb1 hb2
      by_cases h1 : takeStep cand1 d i last1
      · have hc1 : cand1 i = true := by
          cases last1 with
          | none => exact h1
          | some p => simp only [takeStep, Bool.and_eq_true] at h1; exact h1.1
        by_cases h2 : takeStep cand2 d i last2
        · rw [greedyScan_cons, greedyScan_cons, if_pos h1, if_pos h2]
          have := ihA (some i) (some i) hselfBefore hselfBefore
            (fun b hb => ⟨i, rfl, by injection hb with hb; omega⟩)
          simp only [List.length_cons]
          omega
        · cases last2 with
          | none => exact absurd (hc i hc1) (by simpa [takeStep] using h2)
          | some b =>
            have hbi : b < i := hb2 b rfl i (List.mem_cons_self i rest)
            rw [greedyScan_cons, greedyScan_cons, if_pos h1, if_neg h2]
            have := ihA (some i) (some b) hselfBefore (optBefore_tail hb2)
              (fun b' hb' => ⟨i, rfl, by injection hb' with hb'; omega⟩)
            simp only [List.length_cons]
            omega
      · by_cases h2 : takeStep cand2 d i last2
        · rw [greedyScan_cons, greedyScan_cons, if_neg h1, if_pos h2]
          have := ihB last1 (some i) (optBefore_tail hb1) hselfBefore
          simp only [List.length_cons]
          omega
        · rw [greedyScan_cons, greedyScan_cons, if_neg h1, if_neg h2]
          exact ihB last1 last2 (optBefore_tail hb1) (optBefore_tail hb2)

/-! ### Claim C3 -/

/-- C3: threshold-mode monotonicity.  For a fixed novelty curve, sample rate
and hop length, and sensitivities `s1 ≤ s2` in `[0, 1]`, the picker without an
expected count returns at most as many boundaries at `s1` as at `s2`
(threshold `0.9 - sensitivity·0.6` shrinks, so the candidate set only grows). -/
theorem find_peaks_threshold_monotone (novelty : List ℚ) (sr hop : ℕ) (s1 s2 : ℚ)
    (hs0 : 0 ≤ s1) (hs12 : s1 ≤ s2) (hs1 : s2 ≤ 1) :
    (find_peaks novelty sr hop s1 none).length
      ≤ (find_peaks novelty sr hop s2 none).length := by
  simp only [find_peaks, Option.getD_none, lt_irrefl, if_false, frames_to_time,
    List.length_map]
  have hthr : 9/10 - s2 * (6/10) ≤ 9/10 - s1 * (6/10) := by nlinarith
  refine (greedyScan_mono (min_distance_frames sr hop) _ _ ?_
      (List.range' 1 (novelty.length - 2)) (List.pairwise_lt_range' 1 _)).1
    none none (by intro p hp; cases hp) (by intro p hp; cases hp)
    (by intro b hb; cases hb)
  intro i hi
  simp only [Bool.and_eq_true, decide_eq_true_eq] at hi ⊢
  exact ⟨lt_of_le_of_lt hthr hi.1, hi.2⟩

/-- Witness for C3 at a concrete input. -/
theorem find_peaks_threshold_monotone_witness :
    (0 : ℚ) ≤ 0 ∧ (0 : ℚ) ≤ 1 ∧ (1 : ℚ) ≤ 1 ∧
      (find_peaks [0, 1, 0] 22050 512 0 none).length
        ≤ (find_peaks [0, 1, 0] 22050 512 1 none).length :=
  ⟨le_refl 0, by norm_num, le_refl 1,
    find_peaks_threshold_monotone [0, 1, 0] 22050 512 0 1 (le_refl 0) (by norm_num)
      (le_refl 1)⟩

/-! ### Tracklist model and the timestamp bypass -/

/-- An entry of the supplied tracklist (`tracklist_parser.Track`). -/
structure Track where
  number : ℕ
  artist : Option String := none
  title : Option String := none
  timestamp : Option ℚ := none
deriving DecidableEq

/-- `sorted([t.timestamp for t in tracklist[1:] if t.timestamp is not None])`:
the timestamps of every track except the first, in ascending order. -/
def tracklist_timestamps (tracklist : List Track) : List ℚ :=
  ((tracklist.drop 1).filterMap Track.timestamp).insertionSort (· ≤ ·)

/-- Boundary selection shared verbatim by `DJMixSegmenter.analyze_mix` and
`segment_mix`: if the tracklist is truthy and any entry has a timestamp, the
sorted timestamps (excluding the first track) are the boundaries and feature
analysis is bypassed; otherwise boundaries come from the detection pipeline
`detect` (abstracted here, since it wraps the audio feature extraction),
invoked with `expected_count = len(tracklist) if tracklist else None`.
A missing tracklist (`None`) is modelled by `[]`; both are falsy in Python. -/
def analyze_mix_boundaries (detect : Option ℕ → List ℚ) (tracklist : List Track) :
    List ℚ :=
  if tracklist ≠ [] ∧ tracklist.any (fun t => t.timestamp.isSome) then
    tracklist_timestamps tracklist
  else
    detect (if tracklist ≠ [] then some tracklist.length else none)

/-! ### Claim C4 -/

/-- C4: when the supplied tracklist carries any explicit timestamps, both
`analyze_mix` and `segment_mix` bypass feature analysis entirely — the result
does not depend on the detector — and use the tracklist's timestamps, sorted
ascending and excluding the first track's entry, as the boundary list. -/
theorem analyze_mix_timestamp_bypass (tracklist : List Track)
    (detect detect2 : Option ℕ → List ℚ)
    (h : tracklist.any (fun t => t.timestamp.isSome) = true) :
    analyze_mix_boundaries detect tracklist = tracklist_timestamps tracklist ∧
      analyze_mix_boundaries detect tracklist = analyze_mix_boundaries detect2 tracklist ∧
      List.Perm (analyze_mix_boundaries detect tracklist)
        ((tracklist.drop 1).filterMap Track.timestamp) ∧
      (analyze_mix_boundaries detect tracklist).Sorted (· ≤ ·) := by
  have hne : tracklist ≠ [] := by
    intro he
    rw [he] at h
    simp at h
  have hcond : tracklist ≠ [] ∧ tracklist.any (fun t => t.timestamp.isSome) := ⟨hne, h⟩
  have hb : analyze_mix_boundaries detect tracklist = tracklist_timestamps tracklist := by
    rw [analyze_mix_boundaries, if_pos hcond]
  have hb2 : analyze_mix_boundaries detect2 tracklist = tracklist_timestamps tracklist := by
    rw [analyze_mix_boundaries, if_pos hcond]
  refine ⟨hb, hb.trans hb2.symm, ?_, ?_⟩
  · rw [hb, tracklist_timestamps]
    exact List.perm_insertionSort _ _
  · rw [hb, tracklist_timestamps]
    exact List.sorted_insertionSort _ _

/-- Witness for C4 at a concrete tracklist with explicit timestamps. -/
theorem analyze_mix_timestamp_bypass_witness :
    analyze_mix_boundaries (fun _ => [99])
        [⟨1, none, none, some 0⟩, ⟨2, none, none, some 240⟩]
      = tracklist_timestamps [⟨1, none, none, some 0⟩, ⟨2, none, none, some 240⟩] :=
  (analyze_mix_timestamp_bypass
    [⟨1, none, none, some 0⟩, ⟨2, none, none, some 240⟩]
    (fun _ => [99]) (fun _ => []) (by decide)).1

/-! ### Track matching: word-set Jaccard similarity -/

/-- Split a character list at whitespace runs, dropping empty pieces, with the
current in-progress word carried reversed (Python's argumentless `str.split`). -/
def splitWs : List Char → List Char → List (List Char)
  | [], cur => if cur.isEmpty then [] else [cur.reverse]
  | c :: rest, cur =>
    if c.isWhitespace then
      if cur.isEmpty then splitWs rest [] else cur.reverse :: splitWs rest []
    else splitWs rest (c :: cur)

/-- `set(s.lower().split())`: the set of whitespace-separated words of the
lower-cased string, modelled character-wise. -/
def words (s : String) : Finset String :=
  ((splitWs (s.toList.map Char.toLower) []).map String.mk).toFinset

/-- `calculate_string_similarity` from `segmenter.py`: `None` on either side
gives 0; both word sets empty gives 1; exactly one empty gives 0; otherwise
the Jaccard ratio `|words1 ∩ words2| / |words1 ∪ words2|`. -/
def calculate_string_similarity (str1 str2 : Option String) : ℚ :=
  match str1, str2 with
  | none, _ => 0
  | _, none => 0
  | some s1, some s2 =>
    let words1 := words s1
    let words2 := words s2
    if words1 = ∅ ∧ words2 = ∅ then 1
    else if words1 = ∅ ∨ words2 = ∅ then 0
    else
      let inter := words1 ∩ words2
      let union := words1 ∪ words2
      if union ≠ ∅ then (inter.card : ℚ) / (union.card : ℚ) else 0

/-- `calculate_track_match_score`: artist similarity weighted 0.4, title
similarity weighted 0.6. -/
def calculate_track_match_score
    (recognized_artist recognized_title tracklist_artist tracklist_title :
      Option String) : ℚ :=
  let artist_similarity := calculate_string_similarity recognized_artist tracklist_artist
  let title_similarity := calculate_string_similarity recognized_title tracklist_title
  artist_similarity * (4/10) + title_similarity * (6/10)

/-- Similarity of a string with itself is 1 (also when its word set is empty,
via the both-empty branch). -/
theorem calculate_string_similarity_self (s : String) :
    calculate_string_similarity (some s) (some s) = 1 := by
  by_cases h : words s = ∅
  · simp [calculate_string_similarity, h]
  · have hcard : (0 : ℚ) < ((words s).card : ℚ) := by
      have := Finset.card_pos.mpr (Finset.nonempty_iff_ne_empty.mpr h)
      exact_mod_cast this
    simp only [calculate_string_similarity, Finset.inter_self, Finset.union_self, h,
      and_self, if_false, or_self, ne_eq, if_true, if_neg, not_false_iff]
    exact div_self (ne_of_gt hcard)

/-- Disjoint word sets, not both empty, give similarity 0. -/
theorem calculate_string_similarity_disjoint (s1 s2 : String)
    (hd : words s1 ∩ words s2 = ∅) (hne : ¬(words s1 = ∅ ∧ words s2 = ∅)) :
    calculate_string_similarity (some s1) (some s2) = 0 := by
  simp only [calculate_string_similarity]
  rw [if_neg hne]
  by_cases h1 : words s1 = ∅ ∨ words s2 = ∅
  · rw [if_pos h1]
  · rw [if_neg h1]
    rw [if_pos]
    · rw [hd]
      simp
    · push_neg at h1
      simp only [ne_eq, Finset.union_eq_empty, not_and]
      intro hc
      exact absurd hc h1.1

/-- Against an empty second field, a non-empty word set scores 0 (the
exactly-one-empty branch). -/
theorem calculate_string_similarity_empty_right (s : String) (h : ¬ words s = ∅) :
    calculate_string_similarity (some s) (some "") = 0 := by
  have he : words "" = ∅ := by decide
  simp [calculate_string_similarity, he, h]

/-! ### Claim C5 -/

/-- C5: the track match score is `0.4·J(artists) + 0.6·J(titles)` over the
word-set Jaccard similarities; identical artist and title score 1; pairwise
disjoint non-degenerate word sets score 0; and a title-only difference scores
strictly lower than an artist-only difference of equal magnitude. -/
theorem calculate_track_match_score_spec :
    (∀ ra rt ta tt : Option String,
        calculate_track_match_score ra rt ta tt
          = (4/10) * calculate_string_similarity ra ta
            + (6/10) * calculate_string_similarity rt tt) ∧
    (∀ a t : String,
        calculate_track_match_score (some a) (some t) (some a) (some t) = 1) ∧
    (∀ a1 t1 a2 t2 : String,
        words a1 ∩ words a2 = ∅ → ¬(words a1 = ∅ ∧ words a2 = ∅) →
        words t1 ∩ words t2 = ∅ → ¬(words t1 = ∅ ∧ words t2 = ∅) →
        calculate_track_match_score (some a1) (some t1) (some a2) (some t2) = 0) ∧
    (∀ a t x y : String,
        calculate_string_similarity (some a) (some x)
          = calculate_string_similarity (some t) (some y) →
        calculate_string_similarity (some t) (some y) < 1 →
        calculate_track_match_score (some a) (some t) (some a) (some y)
          < calculate_track_match_score (some a) (some t) (some x) (some t)) := by
  refine ⟨?_, ?_, ?_, ?_⟩
  · intro ra rt ta tt
    simp only [calculate_track_match_score]
    ring
  · intro a t
    simp only [calculate_track_match_score, calculate_string_similarity_self]
    norm_num
  · intro a1 t1 a2 t2 hda hna hdt hnt
    simp only [calculate_track_match_score,
      calculate_string_similarity_disjoint a1 a2 hda hna,
      calculate_string_similarity_disjoint t1 t2 hdt hnt]
    norm_num
  · intro a t x y heq hlt
    simp only [calculate_track_match_score, calculate_string_similarity_self]
    rw [← heq] at hlt ⊢
    linarith

/-- Witness for C5's conditional parts at concrete strings: an empty-versus-
non-empty field pair has similarity 0 on both artist and title, and the
title-only variant indeed scores strictly lower. -/
theorem calculate_track_match_score_spec_witness :
    calculate_string_similarity (some "alpha") (some "")
        = calculate_string_similarity (some "beta") (some "") ∧
      calculate_track_match_score (some "alpha") (some "beta") (some "alpha") (some "")
        < calculate_track_match_score (some "alpha") (some "beta") (some "") (some "beta") := by
  have ha : calculate_string_similarity (some "alpha") (some "") = 0 :=
    calculate_string_similarity_empty_right "alpha" (by decide)
  have hb : calculate_string_similarity (some "beta") (some "") = 0 :=
    calculate_string_similarity_empty_right "beta" (by decide)
  exact ⟨ha.trans hb.symm,
    calculate_track_match_score_spec.2.2.2 "alpha" "beta" "" "" (ha.trans hb.symm)
      (by rw [hb]; norm_num)⟩

/-! ### Cue time formatting -/

/-- Python's `f"{n:02d}"`: decimal rendering zero-padded to width two (wider
values, such as minutes beyond 59, are rendered in full). -/
def pad2 (n : ℤ) : String := if 0 ≤ n ∧ n < 10 then "0" ++ toString n else toString n

/-- `minutes = int(seconds // 60)` of `seconds_to_cue_time`. -/
def cue_minutes (seconds : ℚ) : ℤ := ⌊seconds / 60⌋

/-- `remaining_seconds = seconds % 60` (Python float `%` takes the divisor's
sign: `s - 60·⌊s/60⌋`). -/
def cue_remaining (seconds : ℚ) : ℚ := seconds - 60 * ⌊seconds / 60⌋

/-- `secs = int(remaining_seconds)`; the remainder is non-negative, so `int`
truncation is the floor. -/
def cue_secs (seconds : ℚ) : ℤ := ⌊cue_remaining seconds⌋

/-- `frames = int((remaining_seconds - secs) * 75)`; the operand is
non-negative, so `int` truncation is the floor. -/
def cue_frames (seconds : ℚ) : ℤ :=
  ⌊(cue_remaining seconds - cue_secs seconds) * 75⌋

/-- `CueSheetGenerator.seconds_to_cue_time`: `MM:SS:FF` with frames at
75 per second. -/
def seconds_to_cue_time (seconds : ℚ) : String :=
  pad2 (cue_minutes seconds) ++ ":" ++ pad2 (cue_secs seconds) ++ ":"
    ++ pad2 (cue_frames seconds)

theorem cue_remaining_eq_fract (q : ℚ) :
    cue_remaining q = 60 * Int.fract (q / 60) := by
  rw [cue_remaining, Int.fract]
  ring

theorem cue_remaining_bounds (q : ℚ) :
    0 ≤ cue_remaining q ∧ cue_remaining q < 60 := by
  rw [cue_remaining_eq_fract]
  constructor
  · have := Int.fract_nonneg (q / 60)
    linarith
  · have := Int.fract_lt_one (q / 60)
    linarith

theorem cue_secs_bounds (q : ℚ) : 0 ≤ cue_secs q ∧ cue_secs q < 60 := by
  obtain ⟨h0, h1⟩ := cue_remaining_bounds q
  constructor
  · exact Int.le_floor.mpr (by exact_mod_cast h0)
  · exact Int.floor_lt.mpr (by exact_mod_cast h1)

theorem cue_frames_bounds (q : ℚ) : 0 ≤ cue_frames q ∧ cue_frames q < 75 := by
  have h0 : 0 ≤ Int.fract (cue_remaining q) := Int.fract_nonneg _
  have h1 : Int.fract (cue_remaining q) < 1 := Int.fract_lt_one _
  have heq : cue_remaining q - cue_secs q = Int.fract (cue_remaining q) := by
    rw [cue_secs, Int.fract]
  rw [cue_frames, heq]
  constructor
  · exact Int.le_floor.mpr (by push_cast; nlinarith)
  · exact Int.floor_lt.mpr (by push_cast; nlinarith)

/-- Non-negative integers below 100 render as exactly two characters under
zero-padding. -/
theorem pad2_two_digits (n : ℤ) (h0 : 0 ≤ n) (h1 : n < 100) :
    (pad2 n).length = 2 := by
  obtain ⟨m, rfl⟩ := Int.eq_ofNat_of_zero_le h0
  have hm : m < 100 := by exact_mod_cast h1
  have hall : ∀ k : ℕ, k < 100 → (pad2 (k : ℤ)).length = 2 := by decide
  exact hall m hm

/-! ### Claim C6 -/

/-- C6: `seconds_to_cue_time` maps 0 to `"00:00:00"`, 90.5 to `"01:30:37"`
(37.5 frames truncates to 37) and 3600 to `"60:00:00"` (minutes uncapped);
and for every non-negative input the minutes field is non-negative while the
seconds and frames fields are exactly two digits. -/
theorem seconds_to_cue_time_spec :
    seconds_to_cue_time 0 = "00:00:00" ∧
      seconds_to_cue_time (90.5 : ℚ) = "01:30:37" ∧
      seconds_to_cue_time 3600 = "60:00:00" ∧
      ∀ q : ℚ, 0 ≤ q →
        seconds_to_cue_time q
            = pad2 (cue_minutes q) ++ ":" ++ pad2 (cue_secs q) ++ ":"
              ++ pad2 (cue_frames q) ∧
          0 ≤ cue_minutes q ∧
          (pad2 (cue_secs q)).length = 2 ∧ (pad2 (cue_frames q)).length = 2 := by
  refine ⟨?_, ?_, ?_, ?_⟩
  · have hm : cue_minutes 0 = 0 := by norm_num [cue_minutes]
    have hr : cue_remaining 0 = 0 := by norm_num [cue_remaining]
    have hs : cue_secs 0 = 0 := by norm_num [cue_secs, hr]
    have hf : cue_frames 0 = 0 := by norm_num [cue_frames, hr, hs]
    rw [seconds_to_cue_time, hm, hs, hf]
    decide
  · have hm : cue_minutes (90.5 : ℚ) = 1 := by norm_num [cue_minutes]
    have hr : cue_remaining (90.5 : ℚ) = 61/2 := by norm_num [cue_remaining]
    have hs : cue_secs (90.5 : ℚ) = 30 := by rw [cue_secs, hr]; norm_num
    have hf : cue_frames (90.5 : ℚ) = 37 := by
      rw [cue_frames, hr, hs]
      norm_num
    rw [seconds_to_cue_time, hm, hs, hf]
    decide
  · have hm : cue_minutes 3600 = 60 := by norm_num [cue_minutes]
    have hr : cue_remaining 3600 = 0 := by norm_num [cue_remaining]
    have hs : cue_secs 3600 = 0 := by norm_num [cue_secs, hr]
    have hf : cue_frames 3600 = 0 := by norm_num [cue_frames, hr, hs]
    rw [seconds_to_cue_time, hm, hs, hf]
    decide
  · intro q hq
    refine ⟨rfl, ?_, ?_, ?_⟩
    · exact Int.le_floor.mpr (by positivity)
    · obtain ⟨h0, h1⟩ := cue_secs_bounds q
      exact pad2_two_digits _ h0 (by omega)
    · obtain ⟨h0, h1⟩ := cue_frames_bounds q
      exact pad2_two_digits _ h0 (by omega)

/-- Witness for C6's universally quantified part at 90 seconds. -/
theorem seconds_to_cue_time_spec_witness :
    (0 : ℚ) ≤ 90 ∧
      (seconds_to_cue_time 90
          = pad2 (cue_minutes 90) ++ ":" ++ pad2 (cue_secs 90) ++ ":"
            ++ pad2 (cue_frames 90) ∧
        0 ≤ cue_minutes 90 ∧
        (pad2 (cue_secs 90)).length = 2 ∧ (pad2 (cue_frames 90)).length = 2) :=
  ⟨by norm_num, seconds_to_cue_time_spec.2.2.2 90 (by norm_num)⟩

/-! ### Cue sheet generation -/

/-- Split a character list at a separator, keeping empty pieces, the current
piece carried reversed (the path split underlying `pathlib`). -/
def splitOnChar (sep : Char) : List Char → List Char → List (List Char)
  | [], cur => [cur.reverse]
  | c :: rest, cur =>
    if c = sep then cur.reverse :: splitOnChar sep rest []
    else splitOnChar sep rest (c :: cur)

/-- `Path(p).name`: the final `/`-separated component (pathlib's
trailing-slash normalisation is not modelled; no claim depends on it). -/
def file_name (p : String) : String :=
  String.mk ((splitOnChar '/' p.toList []).getLastD [])

/-- The index of the last `.` of a character list, if any. -/
def lastDotIdx (cs : List Char) : Option ℕ :=
  ((List.range cs.length).filter (fun i => cs.getD i ' ' = '.')).getLast?

/-- `Path(p).suffix`: the extension of the final component, from its last dot,
empty when the name has no dot, starts with its only dot, or ends in a dot. -/
def path_suffix (p : String) : String :=
  let cs := (file_name p).toList
  match lastDotIdx cs with
  | some i => if 0 < i ∧ i + 1 < cs.length then String.mk (cs.drop i) else ""
  | none => ""

/-- `audio_path.suffix.lower()`, lower-casing modelled character-wise. -/
def cue_ext (p : String) : String :=
  String.mk ((path_suffix p).toList.map Char.toLower)

/-- The extension-to-`FILE`-type table of `CueSheetGenerator.generate_cue`:
`.mp3 → MP3`, `.m4a → MP4`, `.aac → WAVE` (raw ADTS for mp3DirectCut),
`.wav → WAVE`, anything else defaults to `MP3`. -/
def cue_file_type (audio_filepath : String) : String :=
  let ext := cue_ext audio_filepath
  if ext = ".mp3" then "MP3"
  else if ext = ".m4a" then "MP4"
  else if ext = ".aac" then "WAVE"
  else if ext = ".wav" then "WAVE"
  else "MP3"

/-- Python truthiness of an optional string: `None` and `""` are falsy. -/
def truthy : Option String → Bool
  | none => false
  | some s => !s.isEmpty

/-- `get_track_info` of `generate_cue`: artist and title of the 1-indexed
track when the tracklist is truthy and long enough, else `(None, None)`. -/
def get_track_info (tracklist : List Track) (track_num : ℕ) :
    Option String × Option String :=
  if tracklist ≠ [] ∧ track_num ≤ tracklist.length then
    ((tracklist.getD (track_num - 1) ⟨0, none, none, none⟩).artist,
      (tracklist.getD (track_num - 1) ⟨0, none, none, none⟩).title)
  else (none, none)

/-- One `TRACK NN AUDIO` block of the cue sheet: optional `PERFORMER`, a
`TITLE` when known or a synthesized `"Track NN"` when neither performer nor
title is, and its `INDEX 01` line. -/
def track_block (tracklist : List Track) (track_num : ℕ) (index_time : String) :
    List String :=
  let info := get_track_info tracklist track_num
  let performer := info.1
  let title := info.2
  ["  TRACK " ++ pad2 (track_num : ℤ) ++ " AUDIO"]
    ++ (if truthy performer then ["    PERFORMER \"" ++ performer.getD "" ++ "\""]
        else [])
    ++ (if truthy title then ["    TITLE \"" ++ title.getD "" ++ "\""]
        else if truthy performer then []
        else ["    TITLE \"Track " ++ pad2 (track_num : ℤ) ++ "\""])
    ++ ["    INDEX 01 " ++ index_time]

/-- The lines of `CueSheetGenerator.generate_cue`: a `FILE` declaration, track
01 at `00:00:00`, then one block per boundary. -/
def generate_cue_lines (audio_filepath : String) (boundaries : List ℚ)
    (tracklist : List Track) : List String :=
  ["FILE \"" ++ file_name audio_filepath ++ "\" " ++ cue_file_type audio_filepath]
    ++ track_block tracklist 1 "00:00:00"
    ++ (boundaries.enum.map
          (fun p => track_block tracklist (p.1 + 2) (seconds_to_cue_time p.2))).flatten

/-- `generate_cue` joins the lines with a trailing newline (the optional write
to `output_filepath` is an I/O side effect outside the model). -/
def generate_cue (audio_filepath : String) (boundaries : List ℚ)
    (tracklist : List Track) : String :=
  String.intercalate "\n" (generate_cue_lines audio_filepath boundaries tracklist) ++ "\n"

/-! ### Claim C7 -/

/-- C7 counterexample: `generate_cue` maps the `.aac` extension to `WAVE`
(raw ADTS for mp3DirectCut), not to `MP4` as the claim's reading of the table
(".m4a and .aac (container) map to MP4") would require. -/
theorem cue_file_type_aac_counterexample :
    cue_file_type "mix.aac" = "WAVE" ∧ cue_file_type "mix.aac" ≠ "MP4" := by decide

/-- C7 (amended): the `FILE` container type is inferred solely from the
lower-cased extension, by the table `.mp3 → MP3`, `.m4a → MP4`, `.aac → WAVE`
(every `.aac` is treated as raw ADTS AAC), `.wav → WAVE`, anything else
defaulting to `MP3`; and the first line of the generated cue sheet carries
exactly that type. -/
theorem cue_file_type_spec (p q : String) :
    (cue_ext p = cue_ext q → cue_file_type p = cue_file_type q) ∧
      (cue_ext p = ".mp3" → cue_file_type p = "MP3") ∧
      (cue_ext p = ".m4a" → cue_file_type p = "MP4") ∧
      (cue_ext p = ".aac" → cue_file_type p = "WAVE") ∧
      (cue_ext p = ".wav" → cue_file_type p = "WAVE") ∧
      (cue_ext p ≠ ".mp3" → cue_ext p ≠ ".m4a" → cue_ext p ≠ ".aac" →
        cue_ext p ≠ ".wav" → cue_file_type p = "MP3") ∧
      ∀ (bs : List ℚ) (tl : List Track),
        (generate_cue_lines p bs tl).head?
          = some ("FILE \"" ++ file_name p ++ "\" " ++ cue_file_type p) := by
  refine ⟨?_, ?_, ?_, ?_, ?_, ?_, ?_⟩
  · intro h; simp only [cue_file_type, h]
  · intro h; simp only [cue_file_type, h]; decide
  · intro h; simp only [cue_file_type, h]; decide
  · intro h; simp only [cue_file_type, h]; decide
  · intro h; simp only [cue_file_type, h]; decide
  · intro h1 h2 h3 h4
    simp only [cue_file_type, if_neg h1, if_neg h2, if_neg h3, if_neg h4]
  · intro bs tl
    simp [generate_cue_lines]

/-- Witness for C7's amended table at a concrete path. -/
theorem cue_file_type_spec_witness :
    cue_ext "a.m4a" = ".m4a" ∧ cue_file_type "a.m4a" = "MP4" :=
  ⟨by decide, (cue_file_type_spec "a.m4a" "a.m4a").2.2.1 (by decide)⟩

/-! ### String prefix machinery for the cue-sheet line proofs -/

theorem string_data_append (a b : String) : (a ++ b).data = a.data ++ b.data := rfl

theorem take4_ne {a b : String} (h : a.data.take 4 ≠ b.data.take 4) : a ≠ b :=
  fun he => h (by rw [he])

theorem take4_append (a b : String) (h : 4 ≤ a.data.length) :
    (a ++ b).data.take 4 = a.data.take 4 := by
  rw [string_data_append, List.take_append_of_le_length h]

theorem take4_append2 (a b c : String) (h : 4 ≤ a.data.length) :
    (a ++ b ++ c).data.take 4 = a.data.take 4 := by
  have h2 : 4 ≤ (a ++ b).data.length := by
    rw [string_data_append, List.length_append]; omega
  rw [take4_append _ _ h2, take4_append _ _ h]

theorem take4_append3 (a b c d : String) (h : 4 ≤ a.data.length) :
    (a ++ b ++ c ++ d).data.take 4 = a.data.take 4 := by
  have h2 : 4 ≤ (a ++ b).data.length := by
    rw [string_data_append, List.length_append]; omega
  have h3 : 4 ≤ (a ++ b ++ c).data.length := by
    rw [string_data_append, List.length_append]; omega
  rw [take4_append _ _ h3, take4_append _ _ h2, take4_append _ _ h]

/-- The lines of a track block after its `TRACK NN AUDIO` header: some middle
lines (each indented four spaces) followed by the `INDEX 01` line. -/
theorem track_block_shape (tl : List Track) (tn : ℕ) (it : String) :
    ∃ mid : List String,
      track_block tl tn it
          = ("  TRACK " ++ pad2 (tn : ℤ) ++ " AUDIO")
              :: mid ++ ["    INDEX 01 " ++ it] ∧
        ∀ s ∈ mid, s.data.take 4 = ("    " : String).data := by
  rw [track_block]
  set info := get_track_info tl tn with hinfo
  by_cases hP : truthy info.1 <;> by_cases hT : truthy info.2
  · refine ⟨["    PERFORMER \"" ++ info.1.getD "" ++ "\"",
      "    TITLE \"" ++ info.2.getD "" ++ "\""], ?_, ?_⟩
    · simp [hP, hT]
    · intro s hs
      simp only [List.mem_cons, List.not_mem_nil, or_false] at hs
      rcases hs with rfl | rfl
      · exact take4_append2 _ _ _ (by decide)
      · exact take4_append2 _ _ _ (by decide)
  · refine ⟨["    PERFORMER \"" ++ info.1.getD "" ++ "\""], ?_, ?_⟩
    · simp [hP, hT]
    · intro s hs
      simp only [List.mem_cons, List.not_mem_nil, or_false] at hs
      subst hs
      exact take4_append2 _ _ _ (by decide)
  · refine ⟨["    TITLE \"" ++ info.2.getD "" ++ "\""], ?_, ?_⟩
    · simp [hP, hT]
    · intro s hs
      simp only [List.mem_cons, List.not_mem_nil, or_false] at hs
      subst hs
      exact take4_append2 _ _ _ (by decide)
  · refine ⟨["    TITLE \"Track " ++ pad2 (tn : ℤ) ++ "\""], ?_, ?_⟩
    · simp [hP, hT]
    · intro s hs
      simp only [List.mem_cons, List.not_mem_nil, or_false] at hs
      subst hs
      exact take4_append2 _ _ _ (by decide)

/-! ### Claim C8 -/

/-- C8: for every audio path and tracklist, `generate_cue` with an empty
boundary list succeeds and yields exactly one `TRACK 01 AUDIO` line, an
`INDEX 01 00:00:00` line, and no `TRACK 02 AUDIO` line. -/
theorem generate_cue_empty_boundaries (p : String) (tl : List Track) :
    (generate_cue_lines p [] tl).count "  TRACK 01 AUDIO" = 1 ∧
      "    INDEX 01 00:00:00" ∈ generate_cue_lines p [] tl ∧
      "  TRACK 02 AUDIO" ∉ generate_cue_lines p [] tl := by
  obtain ⟨mid, hshape, hmid⟩ := track_block_shape tl 1 "00:00:00"
  have hlines : generate_cue_lines p [] tl
      = ("FILE \"" ++ file_name p ++ "\" " ++ cue_file_type p)
          :: ("  TRACK " ++ pad2 ((1 : ℕ) : ℤ) ++ " AUDIO")
          :: mid ++ ["    INDEX 01 " ++ "00:00:00"] := by
    simp [generate_cue_lines, hshape]
  have ht1 : ("  TRACK " ++ pad2 ((1 : ℕ) : ℤ) ++ " AUDIO") = "  TRACK 01 AUDIO" := by
    decide
  have hidx : ("    INDEX 01 " ++ "00:00:00") = "    INDEX 01 00:00:00" := by decide
  rw [hlines, ht1, hidx]
  have hfile1 : ("FILE \"" ++ file_name p ++ "\" " ++ cue_file_type p)
      ≠ "  TRACK 01 AUDIO" := by
    apply take4_ne
    rw [take4_append3 _ _ _ _ (by decide)]
    decide
  have hfile2 : ("FILE \"" ++ file_name p ++ "\" " ++ cue_file_type p)
      ≠ "  TRACK 02 AUDIO" := by
    apply take4_ne
    rw [take4_append3 _ _ _ _ (by decide)]
    decide
  have hmid1 : "  TRACK 01 AUDIO" ∉ mid := by
    intro hmem
    have := hmid _ hmem
    exact absurd this (by decide)
  have hmid2 : "  TRACK 02 AUDIO" ∉ mid := by
    intro hmem
    have := hmid _ hmem
    exact absurd this (by decide)
  refine ⟨?_, ?_, ?_⟩
  · have hmidz : List.count "  TRACK 01 AUDIO" mid = 0 := List.count_eq_zero.mpr hmid1
    have hne1 : "  TRACK 01 AUDIO" ≠ "    INDEX 01 00:00:00" := by decide
    simp [List.count_cons, List.count_append, hmidz, beq_iff_eq, Ne.symm hfile1, hne1]
  · simp
  · intro hmem
    rcases List.mem_cons.mp hmem with h | hmem
    · exact hfile2 h.symm
    rcases List.mem_cons.mp hmem with h | hmem
    · exact absurd h (by decide)
    rcases List.mem_append.mp hmem with h | h
    · exact hmid2 h
    · rw [List.mem_singleton] at h
      exact absurd h (by decide)

/-! ### The interactive verification/retry loop -/

/-- What the choice prompt of the retry loop makes of an input line:
`""`/`"1"` accept, `"2"` retry, `"3"` abort, anything else invalid. -/
inductive ChoiceKind
  | accept
  | retryChoice
  | abort
  | invalid
deriving DecidableEq

/-- What the sensitivity prompt makes of an input line: empty keeps the
current boundaries, a `float()` parse either yields a value or raises
`ValueError`. -/
inductive SensKind
  | blank
  | val (q : ℚ)
  | malformed
deriving DecidableEq

/-- One operator input line, as interpreted by either prompt (`float()`
parsing is a Python library call and is abstracted by `asSens`). -/
structure Tok where
  asChoice : ChoiceKind
  asSens : SensKind

/-- How the `while retry_count < max_retries` loop of `segment_mix` ends. -/
inductive LoopExit
  /-- continue with the current boundaries (choice blank/1, blank
  sensitivity, or a retry that cleared all mismatches) -/
  | continueCurrent
  /-- choice 3: `sys.exit(0)` -/
  | aborted
  /-- the input stream was exhausted: `EOFError` handler, `sys.exit(0)` -/
  | eof
  /-- `retry_count` reached `max_retries` (loop head, or the post-retry
  check) -/
  | budget
deriving DecidableEq

/-- Outcome of a run of the loop: how it ended, how many boundary
re-detections (`detect_boundaries` calls) it performed, and how many
loop-body iterations (choice prompts) it consumed. -/
structure LoopResult where
  exit : LoopExit
  redetections : ℕ
  iterations : ℕ
deriving DecidableEq

/-- Which prompt the next input line will answer: the 3-way choice prompt at
the loop head, or the sensitivity prompt that follows choice `2`. -/
inductive PromptMode
  | choice
  | sens
deriving DecidableEq

/-- The interactive verification loop of `segment_mix` (lines 914-1061),
driven by the operator input stream, one input line per step.  `hasMismatch v`
abstracts whether re-detection plus re-recognition at sensitivity `v` still
leaves mismatches.  In `choice` mode the loop head first checks
`retry_count < max_retries`; consuming a choice counts one iteration.
Invalid choices, malformed sensitivities and out-of-range sensitivities all
`continue` without touching `retry_count`; only a successful re-detection
(valid in-range sensitivity) increments it, and the budget is re-checked
right after it. -/
def verification_loop (max_retries : ℕ) (hasMismatch : ℚ → Bool) :
    List Tok → PromptMode → ℕ → LoopResult
  | [], _, retry_count =>
    if retry_count < max_retries then ⟨LoopExit.eof, 0, 0⟩
    else ⟨LoopExit.budget, 0, 0⟩
  | t :: rest, PromptMode.choice, retry_count =>
    if retry_count < max_retries then
      match t.asChoice with
      | ChoiceKind.accept => ⟨LoopExit.continueCurrent, 0, 1⟩
      | ChoiceKind.abort => ⟨LoopExit.aborted, 0, 1⟩
      | ChoiceKind.invalid =>
        let r := verification_loop max_retries hasMismatch rest PromptMode.choice
          retry_count
        ⟨r.exit, r.redetections, r.iterations + 1⟩
      | ChoiceKind.retryChoice =>
        let r := verification_loop max_retries hasMismatch rest PromptMode.sens
          retry_count
        ⟨r.exit, r.redetections, r.iterations + 1⟩
    else ⟨LoopExit.budget, 0, 0⟩
  | s :: rest, PromptMode.sens, retry_count =>
    match s.asSens with
    | SensKind.blank => ⟨LoopExit.continueCurrent, 0, 0⟩
    | SensKind.malformed =>
      verification_loop max_retries hasMismatch rest PromptMode.choice retry_count
    | SensKind.val q =>
      if 0 ≤ q ∧ q ≤ 1 then
        if hasMismatch q then
          if max_retries ≤ retry_count + 1 then ⟨LoopExit.budget, 1, 0⟩
          else
            let r := verification_loop max_retries hasMismatch rest PromptMode.choice
              (retry_count + 1)
            ⟨r.exit, r.redetections + 1, r.iterations⟩
        else ⟨LoopExit.continueCurrent, 1, 0⟩
      else verification_loop max_retries hasMismatch rest PromptMode.choice retry_count

/-- Re-detections are bounded by the remaining retry budget (in `sens` mode
the loop head has already established `retry_count < max_retries`). -/
theorem verification_loop_redetections_le (max_retries : ℕ)
    (hasMismatch : ℚ → Bool) :
    ∀ toks : List Tok,
      (∀ retry_count,
        (verification_loop max_retries hasMismatch toks PromptMode.choice
                retry_count).redetections
          ≤ max_retries - retry_count) ∧
      (∀ retry_count, retry_count < max_retries →
        (verification_loop max_retries hasMismatch toks PromptMode.sens
                retry_count).redetections
          ≤ max_retries - retry_count) := by
  intro toks
  induction toks with
  | nil =>
    constructor <;> intro rc
    · rw [verification_loop]
      by_cases h : rc < max_retries <;> simp [h]
    · intro _
      rw [verification_loop]
      by_cases h : rc < max_retries <;> simp [h]
  | cons t rest ih =>
    constructor
    · intro rc
      rw [verification_loop]
      by_cases h : rc < max_retries
      · simp only [if_pos h]
        match t.asChoice with
        | ChoiceKind.accept => simp
        | ChoiceKind.abort => simp
        | ChoiceKind.invalid => simpa using ih.1 rc
        | ChoiceKind.retryChoice => simpa using ih.2 rc h
      · simp [h]
    · intro rc hrc
      rw [verification_loop]
      match t.asSens with
      | SensKind.blank => simp
      | SensKind.malformed => simpa using ih.1 rc
      | SensKind.val q =>
        by_cases hq : 0 ≤ q ∧ q ≤ 1
        · simp only [if_pos hq]
          by_cases hm : hasMismatch q
          · simp only [hm, if_true]
            by_cases hb : max_retries ≤ rc + 1
            · simp only [if_pos hb]
              simp
              omega
            · simp only [if_neg hb]
              have := ih.1 (rc + 1)
              simp
              omega
          · simp [hm]
            omega
        · simp only [if_neg hq]
          exact ih.1 rc

/-- A run of consecutive invalid choices makes the loop iterate once per
input without consuming any retry budget, ending only by input exhaustion. -/
theorem verification_loop_invalid_run (max_retries : ℕ) (hasMismatch : ℚ → Bool)
    (t : Tok) (hinv : t.asChoice = ChoiceKind.invalid) :
    ∀ (n retry_count : ℕ), retry_count < max_retries →
      verification_loop max_retries hasMismatch (List.replicate n t)
          PromptMode.choice retry_count
        = ⟨LoopExit.eof, 0, n⟩ := by
  intro n
  induction n with
  | zero =>
    intro rc hrc
    rw [List.replicate, verification_loop, if_pos hrc]
  | succ n ih =>
    intro rc hrc
    rw [List.replicate, verification_loop]
    rw [if_pos hrc]
    simp only [hinv]
    rw [ih rc hrc]

/-! ### Claim C9 -/

/-- C9 counterexample: with the default budget of 3 retries, ten consecutive
invalid operator inputs are re-prompted ten times — the re-prompting is *not*
bounded by the retry budget; the loop ends only because the input stream does
(EOF aborts), not by its own decision. -/
theorem verification_loop_reprompt_counterexample :
    (verification_loop 3 (fun _ => true)
          (List.replicate 10 ⟨ChoiceKind.invalid, SensKind.malformed⟩)
          PromptMode.choice 0).iterations
        = 10 ∧
      ¬ ((verification_loop 3 (fun _ => true)
          (List.replicate 10 ⟨ChoiceKind.invalid, SensKind.malformed⟩)
          PromptMode.choice 0).iterations
        ≤ 3) ∧
      (verification_loop 3 (fun _ => true)
          (List.replicate 10 ⟨ChoiceKind.invalid, SensKind.malformed⟩)
          PromptMode.choice 0).exit
        = LoopExit.eof := by
  have h := verification_loop_invalid_run 3 (fun _ => true)
    ⟨ChoiceKind.invalid, SensKind.malformed⟩ rfl 10 0 (by decide)
  rw [h]
  exact ⟨rfl, by decide, rfl⟩

/-- C9 (amended): for every operator input sequence and however persistently
mismatches recur, the loop performs at most `max_retries` boundary
re-detections (each one consumes budget); but re-prompting on invalid input
is *unbounded* — each invalid input costs one iteration and no budget, so the
loop runs as long as invalid input keeps arriving and ends only on a valid
decision, budget exhaustion after a re-detection, or end of input. -/
theorem verification_loop_budget_spec (max_retries : ℕ) (hasMismatch : ℚ → Bool) :
    (∀ (toks : List Tok) (retry_count : ℕ),
        (verification_loop max_retries hasMismatch toks PromptMode.choice
              retry_count).redetections
          ≤ max_retries - retry_count) ∧
      ∀ (t : Tok) (n retry_count : ℕ), t.asChoice = ChoiceKind.invalid →
        retry_count < max_retries →
        verification_loop max_retries hasMismatch (List.replicate n t)
            PromptMode.choice retry_count
          = ⟨LoopExit.eof, 0, n⟩ := by
  constructor
  · intro toks rc
    exact (verification_loop_redetections_le max_retries hasMismatch toks).1 rc
  · intro t n rc hinv hrc
    exact verification_loop_invalid_run max_retries hasMismatch t hinv n rc hrc

/-- Witness for C9's amended statement at a concrete input. -/
theorem verification_loop_budget_spec_witness :
    (verification_loop 3 (fun _ => true)
        [⟨ChoiceKind.retryChoice, SensKind.blank⟩, ⟨ChoiceKind.accept, SensKind.blank⟩]
        PromptMode.choice 0).redetections ≤ 3 - 0 ∧
      (⟨ChoiceKind.invalid, SensKind.malformed⟩ : Tok).asChoice = ChoiceKind.invalid ∧
      0 < 3 ∧
      verification_loop 3 (fun _ => true)
          (List.replicate 4 ⟨ChoiceKind.invalid, SensKind.malformed⟩)
          PromptMode.choice 0
        = ⟨LoopExit.eof, 0, 4⟩ :=
  ⟨(verification_loop_budget_spec 3 (fun _ => true)).1 _ 0, rfl, by decide,
    (verification_loop_budget_spec 3 (fun _ => true)).2 _ 4 0 rfl (by decide)⟩

/-! ### Chunked recombination (`_detect_boundaries_chunked`) -/

/-- `librosa.time_to_frames(total_samples/sr, sr=sr, hop_length=hop)`: the
sample rate cancels exactly, leaving `⌊total_samples / hop⌋`. -/
def chunk_total_frames (total_samples hop : ℕ) : ℕ := total_samples / hop

/-- One worker result: the chunk's start sample offset and its novelty
curve. -/
structure ChunkResult where
  start_idx : ℕ
  novelty : List ℚ

/-- `fade_len = min(overlap_samples // self.hop_length, chunk_len // 4)` with
`overlap_samples = int(60 * sr)`. -/
def chunk_fade_len (sr hop chunk_len : ℕ) : ℕ :=
  min (60 * sr / hop) (chunk_len / 4)

/-- The triangular blending weight of one chunk at offset `j` inside it:
`weight = ones(chunk_len)`, then `weight[:fade_len] = linspace(0, 1, fade_len)`
and `weight[-fade_len:] = linspace(1, 0, fade_len)` (the tail assignment runs
last, so it is tested first here; `linspace(a, b, n)[k] = a + (b-a)·k/(n-1)`,
and for `n = 1` the `k/(n-1)` terms vanish — rational division by zero is 0 —
matching `linspace(0,1,1) = [0]` and `linspace(1,0,1) = [1]`). -/
def chunk_weight (chunk_len fade_len : ℕ) (j : ℕ) : ℚ :=
  if 0 < fade_len ∧ chunk_len - fade_len ≤ j then
    1 - ((j - (chunk_len - fade_len) : ℕ) : ℚ) / ((fade_len - 1 : ℕ) : ℚ)
  else if 0 < fade_len ∧ j < fade_len then
    ((j : ℕ) : ℚ) / ((fade_len - 1 : ℕ) : ℚ)
  else 1

/-- The accumulated weight array at frame `j`:
`weights[start_frame:end_frame] += weight` summed over all chunk results,
with `start_frame = time_to_frames(start_idx/sr) = start_idx / hop` and
`end_frame = min(start_frame + len(novelty_chunk), total_frames)`. -/
def accumulated_weight (sr hop total_samples : ℕ) (chunks : List ChunkResult)
    (j : ℕ) : ℚ :=
  (chunks.map (fun c =>
    let start_frame := c.start_idx / hop
    let end_frame := min (start_frame + c.novelty.length)
      (chunk_total_frames total_samples hop)
    if start_frame ≤ j ∧ j < end_frame then
      chunk_weight (end_frame - start_frame)
        (chunk_fade_len sr hop (end_frame - start_frame)) (j - start_frame)
    else 0)).sum

/-- `weights[weights == 0] = 1`: the divisor actually used at frame `j`. -/
def final_weight (sr hop total_samples : ℕ) (chunks : List ChunkResult)
    (j : ℕ) : ℚ :=
  let w := accumulated_weight sr hop total_samples chunks j
  if w = 0 then 1 else w

/-- `novelty = combined_novelty / weights` at frame `j`, the weighted chunk
novelty sum divided by the zero-patched weight. -/
def combined_novelty (sr hop total_samples : ℕ) (chunks : List ChunkResult)
    (j : ℕ) : ℚ :=
  (chunks.map (fun c =>
    let start_frame := c.start_idx / hop
    let end_frame := min (start_frame + c.novelty.length)
      (chunk_total_frames total_samples hop)
    if start_frame ≤ j ∧ j < end_frame then
      c.novelty.getD (j - start_frame) 0
        * chunk_weight (end_frame - start_frame)
            (chunk_fade_len sr hop (end_frame - start_frame)) (j - start_frame)
    else 0)).sum / final_weight sr hop total_samples chunks j

/-- A chunk's triangular weight is non-negative at every in-range offset,
whatever the fade length (including a fade of 0 or 1 and a final chunk
shorter than the overlap window). -/
theorem chunk_weight_nonneg (chunk_len fade_len j : ℕ) (hj : j < chunk_len) :
    0 ≤ chunk_weight chunk_len fade_len j := by
  rw [chunk_weight]
  split_ifs with h1 h2
  · have hk : (j - (chunk_len - fade_len) : ℕ) ≤ fade_len - 1 := by omega
    rcases Nat.eq_zero_or_pos (fade_len - 1) with hz | hpos
    · rw [hz]
      simp
    · have hq : ((j - (chunk_len - fade_len) : ℕ) : ℚ) / ((fade_len - 1 : ℕ) : ℚ) ≤ 1 := by
        apply div_le_one_of_le₀
        · exact_mod_cast hk
        · positivity
      linarith
  · positivity
  · norm_num

/-- The accumulated weight is a sum of non-negative contributions. -/
theorem accumulated_weight_nonneg (sr hop total_samples : ℕ)
    (chunks : List ChunkResult) (j : ℕ) :
    0 ≤ accumulated_weight sr hop total_samples chunks j := by
  apply List.sum_nonneg
  intro x hx
  simp only [accumulated_weight, List.mem_map] at hx
  obtain ⟨c, _, rfl⟩ := hx
  by_cases hr : c.start_idx / hop ≤ j ∧
      j < min (c.start_idx / hop + c.novelty.length)
        (chunk_total_frames total_samples hop)
  · rw [if_pos hr]
    exact chunk_weight_nonneg _ _ _ (by omega)
  · rw [if_neg hr]

/-! ### Claim C10 -/

/-- C10: in the chunked recombination, each chunk's triangular fade length is
`min(overlap_samples // hop, chunk_len // 4)`; every zero entry of the
accumulated weight array is replaced by 1 before the element-wise division;
and therefore the divisor of the combined-novelty normalization is strictly
positive at every frame — the division never divides by zero — for every
chunk layout, including a final chunk shorter than the overlap window. -/
theorem chunked_weight_normalization_safe (sr hop total_samples : ℕ)
    (chunks : List ChunkResult) (j : ℕ) :
    (∀ chunk_len, chunk_fade_len sr hop chunk_len
        = min (60 * sr / hop) (chunk_len / 4)) ∧
      (accumulated_weight sr hop total_samples chunks j = 0 →
        final_weight sr hop total_samples chunks j = 1) ∧
      0 < final_weight sr hop total_samples chunks j ∧
      final_weight sr hop total_samples chunks j ≠ 0 := by
  refine ⟨fun _ => rfl, ?_, ?_, ?_⟩
  · intro h
    rw [final_weight]
    simp [h]
  · rw [final_weight]
    by_cases h : accumulated_weight sr hop total_samples chunks j = 0
    · simp [h]
    · simp only [h, if_false]
      exact lt_of_le_of_ne (accumulated_weight_nonneg sr hop total_samples chunks j)
        (Ne.symm h)
  · rw [final_weight]
    by_cases h : accumulated_weight sr hop total_samples chunks j = 0
    · simp [h]
    · simp [h]

end Segmenter
